import Mathlib

/-
Formal model of the Splunk syndication modular input core
(`src/bin/syndication.py`): the date selector, the flattener, the feed
filter, the checkpoint store and the run controller.  Python values are
embedded as an explicit tagged datatype; Python dicts are association
lists (Python dict keys are unique); Python `time.struct_time` values are
records of the calendar fields this program reads.  External collaborators
(the feed parser, the host framework's checkpoint storage, the interval
gate) are parameters of the model or are modelled from the specification
where noted.
-/

/-- A `time.struct_time`.  In CPython it is a named tuple of nine
integers, and its tuple nature matters to this program: `flatten`'s
`isinstance(item, (list, tuple))` branch catches a `struct_time`, so the
program iterates and compares all nine fields.  Negative `tm_isdst`
values (possible in Python for "unknown") are outside the modelled
domain; `time.localtime` and the feed parser produce 0 or 1. -/
structure StructTime where
  tm_year : Nat
  tm_mon : Nat
  tm_mday : Nat
  tm_hour : Nat
  tm_min : Nat
  tm_sec : Nat
  tm_wday : Nat
  tm_yday : Nat
  tm_isdst : Nat
deriving DecidableEq, Repr

/-- The field tuple of a `struct_time`, in the order Python iterates and
compares it. -/
def StructTime.to_list (t : StructTime) : List Nat :=
  [t.tm_year, t.tm_mon, t.tm_mday, t.tm_hour, t.tm_min, t.tm_sec,
   t.tm_wday, t.tm_yday, t.tm_isdst]

/-- The nine tuple elements of a `struct_time` as the Python integers
they are (what `for a in item` yields in `flatten`'s sequence branch). -/
def struct_time_list (t : StructTime) : List Int :=
  [(t.tm_year : Int), (t.tm_mon : Int), (t.tm_mday : Int),
   (t.tm_hour : Int), (t.tm_min : Int), (t.tm_sec : Int),
   (t.tm_wday : Int), (t.tm_yday : Int), (t.tm_isdst : Int)]

/-- Python tuple `<` on equal-length integer tuples: the first unequal
component decides. -/
def list_lt : List Nat → List Nat → Bool
  | [], [] => false
  | [], _ :: _ => true
  | _ :: _, [] => false
  | a :: as, b :: bs => if a < b then true else if b < a then false else list_lt as bs

/-- Python `<` on two `struct_time` values (tuple comparison). -/
def st_lt (a b : StructTime) : Bool := list_lt a.to_list b.to_list

/-- Python `<=` on two `struct_time` values: tuple comparison is a total
order, so `a <= b` iff not `b < a`. -/
def st_le (a b : StructTime) : Bool := !(st_lt b a)

/-- Decimal digits of a natural number, most significant first, with
explicit fuel so the recursion is structural (the fuel `n + 1` always
suffices for `n`). -/
def nat_str_aux : Nat → Nat → List Char
  | 0, _ => []
  | f + 1, n =>
    if n < 10 then [Nat.digitChar n]
    else nat_str_aux f (n / 10) ++ [Nat.digitChar (n % 10)]

/-- Python `str` of a non-negative integer: its decimal representation. -/
def nat_str (n : Nat) : String := String.mk (nat_str_aux (n + 1) n)

/-- Python `str` of an integer. -/
def int_str (n : Int) : String :=
  if n < 0 then "-" ++ nat_str n.natAbs else nat_str n.natAbs

/-- Zero-pad a number to two digits (the `%m`, `%d`, `%H`, `%M`, `%S`
directives of `time.strftime`). -/
def pad2 (n : Nat) : String := if n < 10 then "0" ++ nat_str n else nat_str n

/-- Zero-pad a number to four digits (the `%Y` directive). -/
def pad4 (n : Nat) : String :=
  if n < 10 then "000" ++ nat_str n
  else if n < 100 then "00" ++ nat_str n
  else if n < 1000 then "0" ++ nat_str n
  else nat_str n

/-- `time.strftime('%Y-%m-%dT%H:%M:%SZ', t)`, the formatting the source
attempts in its `struct_time` branch (line 110).  That branch is dead
code: a `struct_time` is a tuple, so the sequence branch catches it
first.  The definition documents the intended format only. -/
def format_time (t : StructTime) : String :=
  pad4 t.tm_year ++ "-" ++ pad2 t.tm_mon ++ "-" ++ pad2 t.tm_mday ++ "T" ++
  pad2 t.tm_hour ++ ":" ++ pad2 t.tm_min ++ ":" ++ pad2 t.tm_sec ++ "Z"

/-- Modelled from the spec: `time.mktime` (Python standard library,
external to this repository) converts a `struct_time` to the "numeric
epoch representation" persisted in the checkpoint (spec 4.4).  It is
modelled as a seconds-granularity mixed-radix encoding of the calendar
fields (all nine, so it is injective on in-range field values and
monotone in the nine-tuple order); the civil-calendar day count of the
real C library is an external concern. -/
def mktime_nat (t : StructTime) : Nat :=
  (((((((t.tm_year * 12 + (t.tm_mon - 1)) * 31 + (t.tm_mday - 1)) * 24 +
      t.tm_hour) * 60 + t.tm_min) * 60 + t.tm_sec) * 7 + t.tm_wday) * 367 +
      t.tm_yday) * 2 + t.tm_isdst

/-- `time.mktime` as a number (Python returns it as a float; the model
keeps integral seconds). -/
def mktime (t : StructTime) : Int := mktime_nat t

/-- Modelled from the spec: `time.localtime` (Python standard library,
external to this repository) converts the persisted numeric epoch value
back to a `struct_time`; it is the decoder of `mktime`'s encoding. -/
def localtime (n : Int) : StructTime :=
  { tm_year := n.toNat / 165139430400
    tm_mon := n.toNat / 13761619200 % 12 + 1
    tm_mday := n.toNat / 443923200 % 31 + 1
    tm_hour := n.toNat / 18496800 % 24
    tm_min := n.toNat / 308280 % 60
    tm_sec := n.toNat / 5138 % 60
    tm_wday := n.toNat / 734 % 7
    tm_yday := n.toNat / 2 % 367
    tm_isdst := n.toNat % 2 }

/-- In-range calendar fields, the domain on which the epoch encoding
round-trips. -/
def valid_time (t : StructTime) : Prop :=
  1 ≤ t.tm_mon ∧ t.tm_mon ≤ 12 ∧ 1 ≤ t.tm_mday ∧ t.tm_mday ≤ 31 ∧
  t.tm_hour < 24 ∧ t.tm_min < 60 ∧ t.tm_sec < 60 ∧
  t.tm_wday < 7 ∧ t.tm_yday < 367 ∧ t.tm_isdst < 2

instance (t : StructTime) : Decidable (valid_time t) := by
  unfold valid_time; infer_instance

mutual
/-- A Python value as handled by `SyndicationModularInput.flatten`:
`None`, booleans, integers, strings, `struct_time` timestamps, dicts and
lists/tuples.  Dicts and lists are represented by the mutual types
`Fields` and `Values`. -/
inductive Value where
  | vnone : Value
  | vbool : Bool → Value
  | vint : Int → Value
  | vstr : String → Value
  | vtime : StructTime → Value
  | vdict : Fields → Value
  | vlist : Values → Value

/-- The key/value pairs of a Python dict, in iteration order.  Python
dict keys are unique; theorems that depend on this assume it. -/
inductive Fields where
  | fnil : Fields
  | fcons : String → Value → Fields → Fields

/-- The elements of a Python list (or tuple), in order. -/
inductive Values where
  | lnil : Values
  | lcons : Value → Values → Values
end

/-- Membership lookup on a dict: `key in d` followed by `d[key]`. -/
def fields_lookup : Fields → String → Option Value
  | Fields.fnil, _ => none
  | Fields.fcons k v rest, key => if k == key then some v else fields_lookup rest key

/-- Lookup in an association list (used for the flattened result and for
the persisted checkpoint record). -/
def alist_lookup {α : Type} : List (String × α) → String → Option α
  | [], _ => none
  | (k, v) :: rest, key => if k == key then some v else alist_lookup rest key

/-- Whether an association list already has a binding for `k`. -/
def has_key {α : Type} (d : List (String × α)) (k : String) : Bool :=
  d.any (fun p => p.1 == k)

/-- Python dict assignment `dictionary[name] = item`: overwrite the
existing binding in place if the key is present, else append a new one. -/
def dinsert (d : List (String × Value)) (k : String) (v : Value) :
    List (String × Value) :=
  if has_key d k then d.map (fun p => if p.1 == k then (k, v) else p)
  else d ++ [(k, v)]

/-- The test `item in [True, False, None]` from `flatten`.  Python list
membership uses `==`, and `1 == True` and `0 == False` hold across the
int/bool types, so the integers `0` and `1` pass this test as well as the
booleans and `None`.  Strings, other integers, timestamps and containers
do not compare equal to any of the three. -/
def py_in_tfn : Value → Bool
  | Value.vnone => true
  | Value.vbool _ => true
  | Value.vint n => n == 1 || n == 0
  | _ => false

/-- Python `str(item)` for the values that reach the final branch of
`flatten`.  Containers never reach it (dicts by the first branch, lists,
tuples and therefore `struct_time` values by the sequence branch), so
their clauses are irrelevant placeholders. -/
def py_str : Value → String
  | Value.vnone => "None"
  | Value.vbool b => cond b "True" "False"
  | Value.vint n => int_str n
  | Value.vstr s => s
  | Value.vtime _ => ""
  | Value.vdict _ => ""
  | Value.vlist _ => ""

/-- What `flatten` stores for a leaf value: the value itself if it
passes the `[True, False, None]` membership test, and `str(item)`
otherwise.  Leaves are never dicts, lists or `struct_time` values —
those are expanded by the container branches (a `struct_time` is a
tuple), so only the plain-value branches store leaves. -/
def leaf_store (v : Value) : Value :=
  if py_in_tfn v then v else Value.vstr (py_str v)

/-- A value that is neither a dict nor a sequence: `flatten` stores it
directly under the current prefix.  A `struct_time` is not a scalar: as
a tuple subclass it is caught by `isinstance(item, (list, tuple))` and
flattened element-wise. -/
def is_scalar : Value → Bool
  | Value.vdict _ => false
  | Value.vlist _ => false
  | Value.vtime _ => false
  | _ => true

/-- The prefix handling at the top of `flatten`: `iterative_name` is
`name + "."` when `name` is nonempty, else `name` itself. -/
def iter_name (name : String) : String :=
  if name.length > 0 then name ++ "." else name

/-- The sequence branch of `flatten` applied to a run of integer
elements (the tuple elements of a `struct_time`): each element gets the
stringified index appended to the prefix, and since an integer is a
plain value, the recursive `flatten` call on it is exactly one dict
assignment — the value itself when it passes the `[True, False, None]`
membership test (`tm_isdst = 0` does, `tm_mon = 1` does), its string
representation otherwise. -/
def flatten_ints : List Int → Nat → List (String × Value) → String → List (String × Value)
  | [], _, dictionary, _ => dictionary
  | e :: rest, index, dictionary, iname =>
    flatten_ints rest (index + 1)
      (if py_in_tfn (Value.vint e) then
        dinsert dictionary (iname ++ nat_str index) (Value.vint e)
      else
        dinsert dictionary (iname ++ nat_str index)
          (Value.vstr (py_str (Value.vint e)))) iname

mutual
/-- `SyndicationModularInput.flatten(item, dictionary, name)`: dicts
recurse per key with the key appended to the prefix; sequences recurse
per element with the stringified zero-based index appended — and because
`time.struct_time` is a tuple subclass, `isinstance(item, (list,
tuple))` catches a timestamp here and flattens it element-wise into nine
indexed integer bindings (the `struct_time` strftime branch at line 110
of the source is unreachable for real `struct_time` values and is
modelled by `format_time` for documentation only); values passing the
`[True, False, None]` test are stored as-is, and everything else is
stored as its string representation. -/
def flatten_aux : Value → List (String × Value) → String → List (String × Value)
  | Value.vdict fields, dictionary, name =>
    flatten_fields fields dictionary (iter_name name)
  | Value.vtime t, dictionary, name =>
    flatten_ints (struct_time_list t) 0 dictionary (iter_name name)
  | Value.vlist items, dictionary, name =>
    flatten_items items 0 dictionary (iter_name name)
  | item, dictionary, name =>
    if py_in_tfn item then dinsert dictionary name item
    else dinsert dictionary name (Value.vstr (py_str item))

/-- The dict loop of `flatten`: `for key in item: flatten(item[key],
dictionary, iterative_name + key)`. -/
def flatten_fields : Fields → List (String × Value) → String → List (String × Value)
  | Fields.fnil, dictionary, _ => dictionary
  | Fields.fcons key value rest, dictionary, iname =>
    flatten_fields rest (flatten_aux value dictionary (iname ++ key)) iname

/-- The list loop of `flatten`: `for a in item: flatten(a, dictionary,
iterative_name + str(index)); index += 1`. -/
def flatten_items : Values → Nat → List (String × Value) → String → List (String × Value)
  | Values.lnil, _, dictionary, _ => dictionary
  | Values.lcons value rest, index, dictionary, iname =>
    flatten_items rest (index + 1)
      (flatten_aux value dictionary (iname ++ nat_str index)) iname
end

/-- `flatten(item)` with the default arguments `dictionary=None` (a fresh
empty dict) and `name=None` (the empty prefix). -/
def flatten (item : Value) : List (String × Value) := flatten_aux item [] ""

/-- `SyndicationModularInput.get_updated_date(entry)`: the entry's
`updated_parsed` value if that key is present, else its
`published_parsed` value if present, else `None`.  An entry is the
`FeedParserDict` produced by the external feed parser. -/
def get_updated_date (entry : Fields) : Option Value :=
  match fields_lookup entry "updated_parsed" with
  | some v => some v
  | none =>
    match fields_lookup entry "published_parsed" with
    | some v => some v
    | none => none

/-- The Python test `x is not None` on a value that is either absent
(`none`, the explicit `return None` path) or a present Python value
(which may itself be `None`). -/
def is_not_none : Option Value → Bool
  | none => false
  | some Value.vnone => false
  | some _ => true

/-- Python `<` between two entry dates.  The feed parser puts
`struct_time` values in the date fields, and those compare as tuples;
operand kinds that a well-formed feed never produces are given the
default `false` (theorems about dates assume well-formed feeds). -/
def value_lt : Value → Value → Bool
  | Value.vtime a, Value.vtime b => st_lt a b
  | _, _ => false

/-- Python `<=` between an entry date and the `include_later_than`
threshold (a `struct_time` when present).  In Python 2 a `struct_time` is
never `<=` `None`, which the default `false` also reproduces. -/
def value_le : Value → Value → Bool
  | Value.vtime a, Value.vtime b => st_le a b
  | _, _ => false

/-- The skip test of `get_feed`: `include_later_than is not None and
entry_date <= include_later_than`. -/
def skip_entry (entry_date : Value) (include_later_than : Option Value) : Bool :=
  match include_later_than with
  | none => false
  | some t => value_le entry_date t

/-- The entry loop of `get_feed`, threading `latest_date`.  For each
entry: compute its date; if the date is not `None`, first update
`latest_date` (`if latest_date is None or entry_date > latest_date`) and
then skip the entry when it is not strictly later than
`include_later_than`; every non-skipped entry is flattened and
appended. -/
def get_feed_aux (include_later_than : Option Value) :
    List Fields → Option Value → List (List (String × Value)) × Option Value
  | [], latest_date => ([], latest_date)
  | entry :: rest, latest_date =>
    let entry_date := get_updated_date entry
    if is_not_none entry_date then
      let d := entry_date.getD Value.vnone
      let latest_date2 :=
        match latest_date with
        | none => some d
        | some l => if value_lt l d then some d else some l
      if skip_entry d include_later_than then
        get_feed_aux include_later_than rest latest_date2
      else
        let r := get_feed_aux include_later_than rest latest_date2
        (flatten (Value.vdict entry) :: r.1, r.2)
    else
      let r := get_feed_aux include_later_than rest latest_date
      (flatten (Value.vdict entry) :: r.1, r.2)

/-- `SyndicationModularInput.get_feed(feed_url, return_latest_date=True,
include_later_than)`: the feed fetch itself is the external parser, so
the model takes the parsed entry list as input and returns the flattened
non-skipped entries together with the latest entry date seen. -/
def get_feed (entries : List Fields) (include_later_than : Option Value) :
    List (List (String × Value)) × Option Value :=
  get_feed_aux include_later_than entries none

/-- The two failure kinds the checkpoint read distinguishes only for
logging: `IOError` (storage not found) and `ValueError` (malformed
data). -/
inductive LoadErr where
  | io_error : LoadErr
  | value_error : LoadErr

/-- Modelled from the spec: the state of the framework checkpoint store
for one instance (`save_checkpoint_data` / `get_checkpoint_data` live in
`syndication_app.modular_input`, which is not included under `src/`).
Spec 4.4: the store is empty, holds a well-formed record, or holds
malformed data. -/
inductive StoreState where
  | empty : StoreState
  | corrupt : StoreState
  | saved : List (String × Int) → StoreState

/-- Modelled from the spec: `get_checkpoint_data(..., throw_errors=True)`
raises `IOError` when the storage is missing and `ValueError` on
malformed data, and otherwise returns the persisted record (a dict of
numeric values). -/
def get_checkpoint_data : StoreState → Except LoadErr (List (String × Int))
  | StoreState.empty => Except.error LoadErr.io_error
  | StoreState.corrupt => Except.error LoadErr.value_error
  | StoreState.saved r => Except.ok r

/-- Modelled from the spec: `save_checkpoint_data` atomically overwrites
the instance's stored record. -/
def save_checkpoint_data (_store : StoreState) (r : List (String × Int)) : StoreState :=
  StoreState.saved r

/-- `time.mktime(last_entry_date)` as called by `save_checkpoint`; the
argument is a `struct_time` in every run (a non-timestamp here would
raise `TypeError` in Python and cannot arise from well-formed feeds). -/
def mktime_value : Value → Int
  | Value.vtime t => mktime t
  | _ => 0

/-- `SyndicationModularInput.save_checkpoint`: the record it persists —
`{'last_run': last_run, 'last_entry_date': time.mktime(last_entry_date)}`
when `last_entry_date is not None`, else `{'last_run': last_run}`. -/
def save_checkpoint (last_run : Int) (last_entry_date : Option Value) :
    List (String × Int) :=
  if is_not_none last_entry_date then
    [("last_run", last_run),
     ("last_entry_date", mktime_value (last_entry_date.getD Value.vnone))]
  else
    [("last_run", last_run)]

/-- Python `last_entry_date_retrieved > last_entry_date` where the right
side may be `None`: in Python 2 any `struct_time` is greater than
`None`. -/
def value_gt_opt (r : Value) (p : Option Value) : Bool :=
  match p with
  | none => true
  | some Value.vnone => true
  | some pv => value_lt pv r

/-- Lines 179-180 of `run`: replace `last_entry_date` by
`last_entry_date_retrieved` when the latter is not `None` and is greater
than the former. -/
def update_led (prev retrieved : Option Value) : Option Value :=
  if is_not_none retrieved && value_gt_opt (retrieved.getD Value.vnone) prev then
    retrieved
  else prev

/-- The observable effects of one invocation of `run` that passed the
interval gate: the threshold handed to `get_feed`, the events emitted,
the first argument handed to `get_non_deviated_last_run`, and the
checkpoint record persisted at the end. -/
structure RunResult where
  later_than_used : Option StructTime
  emitted : List (List (String × Value))
  last_ran_passed : Option Int
  saved : List (String × Int)

/-- The body of `SyndicationModularInput.run` after the external interval
gate `needs_another_run` has fired (spec 4.5 steps 2-6).  `g` is the
external helper `get_non_deviated_last_run` applied to the loaded
`last_ran` value (its other arguments, the interval and the stanza, are
fixed within one run); `store` is the checkpoint storage;
`feed_entries` is the parsed feed.  Both the `IOError` and the
`ValueError` handler of the checkpoint read assign
`checkpoint_data = None` (lines 151-157). -/
def run (g : Option Int → Int) (store : StoreState)
    (include_only_changed : Bool) (feed_entries : List Fields) : RunResult :=
  let checkpoint_data : Option (List (String × Int)) :=
    match get_checkpoint_data store with
    | Except.ok d => some d
    | Except.error _ => none
  let last_entry_date : Option StructTime :=
    if include_only_changed then
      match checkpoint_data with
      | some cp => (alist_lookup cp "last_entry_date").map localtime
      | none => none
    else none
  let fr := get_feed feed_entries (last_entry_date.map Value.vtime)
  let last_ran : Option Int :=
    match checkpoint_data with
    | some cp => alist_lookup cp "last_ran"
    | none => none
  let new_led := update_led (last_entry_date.map Value.vtime) fr.2
  { later_than_used := last_entry_date
    emitted := fr.1
    last_ran_passed := last_ran
    saved := save_checkpoint (g last_ran) new_led }

/- Specification-side definitions, written from the claims: the leaf
enumeration of a record, dotted-path keys, the canonical entry date, the
exclusion predicate, and the maximum of the entry dates. -/

/-- The leaves a `struct_time` contributes: its nine tuple elements,
each an integer leaf one component below the timestamp's own path, at
the stringified index. -/
def int_leaves : List Int → Nat → List (List String × Value)
  | [], _ => []
  | e :: rest, i => ([nat_str i], Value.vint e) :: int_leaves rest (i + 1)

mutual
/-- The leaves of a record, each paired with its component path: dict
values extend the path by the key, sequence elements (list elements and
the nine tuple elements of a `struct_time`) by the stringified
zero-based index, and every plain value is a leaf at the empty path. -/
def leaves : Value → List (List String × Value)
  | Value.vdict fields => leaves_fields fields
  | Value.vtime t => int_leaves (struct_time_list t) 0
  | Value.vlist items => leaves_items items 0
  | v => [([], v)]

/-- Leaves of a dict, with the key prepended to each path. -/
def leaves_fields : Fields → List (List String × Value)
  | Fields.fnil => []
  | Fields.fcons k v rest =>
    (leaves v).map (fun pw => (k :: pw.1, pw.2)) ++ leaves_fields rest

/-- Leaves of a list starting at a given index, with the stringified
index prepended to each path. -/
def leaves_items : Values → Nat → List (List String × Value)
  | Values.lnil, _ => []
  | Values.lcons v rest, i =>
    (leaves v).map (fun pw => (nat_str i :: pw.1, pw.2)) ++ leaves_items rest (i + 1)
end

/-- The suffix a nonempty prefix gains from a path: one `"." ++
component` per component. -/
def pre_dot : List String → String
  | [] => ""
  | c :: p => "." ++ c ++ pre_dot p

/-- The dotted-path key of a leaf under the empty prefix: components
joined by `"."` (the empty path gives the empty key). -/
def dot_join : List String → String
  | [] => ""
  | c :: p => c ++ pre_dot p

/-- The key `flatten` builds for a leaf at path `p` when called with
prefix `pre`: each step extends `iterative_name` by the component. -/
def key_of : String → List String → String
  | pre, [] => pre
  | pre, c :: p => key_of (iter_name pre ++ c) p

/-- Whether a dict has a binding for `k`. -/
def has_key_fields : Fields → String → Bool
  | Fields.fnil, _ => false
  | Fields.fcons k _ rest, key => k == key || has_key_fields rest key

mutual
/-- Well-formedness of a record's dict keys for unambiguous flattening:
every dict has pairwise-distinct keys (as Python guarantees) that are
nonempty and contain no `'.'` character. -/
def good_keys : Value → Bool
  | Value.vdict fields => good_fields fields
  | Value.vlist items => good_values items
  | _ => true

/-- Key well-formedness for a dict's fields. -/
def good_fields : Fields → Bool
  | Fields.fnil => true
  | Fields.fcons k v rest =>
    !(has_key_fields rest k) && !(k == "") && !(decide ('.' ∈ k.data)) &&
      good_keys v && good_fields rest

/-- Key well-formedness for a list's elements. -/
def good_values : Values → Bool
  | Values.lnil => true
  | Values.lcons v rest => good_keys v && good_values rest
end

/-- The entry's CanonicalDate: the value `get_updated_date` selects, when
it is a `struct_time`. -/
def entry_date_st (entry : Fields) : Option StructTime :=
  match get_updated_date entry with
  | some (Value.vtime t) => some t
  | _ => none

/-- The claims' exclusion rule: an entry is excluded iff it has a
CanonicalDate, the threshold is present, and the date is less than or
equal to the threshold. -/
def excluded_spec (threshold : Option StructTime) (entry : Fields) : Bool :=
  match entry_date_st entry, threshold with
  | some d, some t => st_le d t
  | _, _ => false

/-- The CanonicalDates of the entries that have one, in feed order. -/
def dates_of (entries : List Fields) : List StructTime :=
  entries.filterMap entry_date_st

/-- One step of the maximum: keep the larger date (the earlier one on
ties). -/
def st_max (a : Option StructTime) (d : StructTime) : Option StructTime :=
  match a with
  | none => some d
  | some m => if st_lt m d then some d else some m

/-- The maximum CanonicalDate over all entries that have one, absent when
none has one. -/
def max_date_of (entries : List Fields) : Option StructTime :=
  (dates_of entries).foldl st_max none

/-- The claims' `max` of two optional dates, where absent loses to any
present value. -/
def spec_max_opt (a b : Option StructTime) : Option StructTime :=
  match a, b with
  | none, b => b
  | some x, none => some x
  | some x, some y => some (if st_lt x y then y else x)

/-- A date value as produced by the external feed parser: absent, the
`None` object, or a `struct_time`. -/
def date_wf : Option Value → Bool
  | none => true
  | some Value.vnone => true
  | some (Value.vtime _) => true
  | some _ => false

/-- A well-formed feed: every entry's selected date field is absent,
`None`, or a `struct_time` (what the external parser guarantees). -/
def entries_wf (entries : List Fields) : Bool :=
  entries.all (fun e => date_wf (get_updated_date e))

/-- The numeric value of a decimal digit character (used to show the
decimal representation is injective). -/
def digit_val (c : Char) : Nat := c.toNat - 48

/-- The number a list of decimal digit characters denotes. -/
def dec_val (l : List Char) : Nat := l.foldl (fun a c => a * 10 + digit_val c) 0

/-- The key `flatten` builds for a leaf of a dict or list member whose
path already starts with a component, given the dotted prefix
(`iterative_name`) in force inside the container: the first component is
appended directly, the rest via `key_of`. -/
def key_tail : String → List String → String
  | pd, [] => pd
  | pd, c :: p => key_of (pd ++ c) p

/- Theorems.  Helper lemmas first, then one theorem per claim of the
specification review, each with its witness where the statement carries a
hypothesis. -/

/-- The epoch encoding decodes to the original `struct_time` on in-range
fields. -/
theorem localtime_mktime (t : StructTime) (h : valid_time t) :
    localtime (mktime t) = t := by
  unfold valid_time at h
  obtain ⟨y, mo, d, hh, mi, s, wd, yd, isd⟩ := t
  obtain ⟨h1, h2, h3, h4, h5, h6, h7, h8, h9, h10⟩ := h
  simp only [localtime, mktime, mktime_nat, StructTime.mk.injEq]
    at h1 h2 h3 h4 h5 h6 h7 h8 h9 h10 ⊢
  refine ⟨?_, ?_, ?_, ?_, ?_, ?_, ?_, ?_, ?_⟩ <;> omega

/-- Strict tuple comparison is irreflexive. -/
theorem list_lt_irrefl (l : List Nat) : list_lt l l = false := by
  induction l with
  | nil => rfl
  | cons a as ih => simp [list_lt, ih]

/-- Strict tuple comparison is transitive. -/
theorem list_lt_trans {a b c : List Nat} (h1 : list_lt a b = true)
    (h2 : list_lt b c = true) : list_lt a c = true := by
  induction a generalizing b c with
  | nil =>
    cases c with
    | nil =>
      cases b with
      | nil => simp [list_lt] at h1
      | cons y ys => simp [list_lt] at h2
    | cons z zs => simp [list_lt]
  | cons x xs ih =>
    cases b with
    | nil => simp [list_lt] at h1
    | cons y ys =>
      cases c with
      | nil => simp [list_lt] at h2
      | cons z zs =>
        simp only [list_lt] at h1 h2 ⊢
        by_cases hxy : x < y
        · by_cases hyz : y < z
          · rw [if_pos (by omega : x < z)]
          · by_cases hzy : z < y
            · rw [if_neg hyz, if_pos hzy] at h2
              simp at h2
            · have hyzeq : y = z := by omega
              subst hyzeq
              rw [if_pos hxy]
        · by_cases hyx : y < x
          · rw [if_neg hxy, if_pos hyx] at h1
            simp at h1
          · have hxyeq : x = y := by omega
            subst hxyeq
            rw [if_neg (lt_irrefl x), if_neg (lt_irrefl x)] at h1
            by_cases hxz : x < z
            · rw [if_pos hxz]
            · by_cases hzx : z < x
              · rw [if_neg hxz, if_pos hzx] at h2
                simp at h2
              · have hxzeq : x = z := by omega
                subst hxzeq
                rw [if_neg (lt_irrefl x), if_neg (lt_irrefl x)] at h2 ⊢
                exact ih h1 h2

/-- Two tuples neither of which is below the other are equal. -/
theorem list_lt_antisymm {a b : List Nat} (h1 : list_lt a b = false)
    (h2 : list_lt b a = false) : a = b := by
  induction a generalizing b with
  | nil =>
    cases b with
    | nil => rfl
    | cons y ys => simp [list_lt] at h1
  | cons x xs ih =>
    cases b with
    | nil => simp [list_lt] at h2
    | cons y ys =>
      simp only [list_lt] at h1 h2
      by_cases hxy : x < y
      · rw [if_pos hxy] at h1
        simp at h1
      · by_cases hyx : y < x
        · rw [if_pos hyx] at h2
          simp at h2
        · rw [if_neg hxy, if_neg hyx] at h1
          rw [if_neg hyx, if_neg hxy] at h2
          have hxyeq : x = y := by omega
          subst hxyeq
          rw [ih h1 h2]

/-- `struct_time` comparison is irreflexive. -/
theorem st_lt_irrefl (a : StructTime) : st_lt a a = false := list_lt_irrefl _

/-- `struct_time` comparison is transitive. -/
theorem st_lt_trans {a b c : StructTime} (h1 : st_lt a b = true)
    (h2 : st_lt b c = true) : st_lt a c = true := list_lt_trans h1 h2

/-- Two `struct_time` values neither of which is below the other have
equal field tuples; with the six modelled fields that means they are
equal. -/
theorem st_lt_antisymm {a b : StructTime} (h1 : st_lt a b = false)
    (h2 : st_lt b a = false) : a = b := by
  have h := list_lt_antisymm h1 h2
  cases a; cases b
  simp only [StructTime.to_list, List.cons.injEq, and_true] at h
  simp_all [StructTime.mk.injEq]

/-- With a `None` threshold `get_feed` keeps every entry: the emitted
list is the feed, flattened, in order. -/
theorem get_feed_aux_none_fst (es : List Fields) :
    ∀ l : Option Value, (get_feed_aux none es l).1
      = es.map (fun e => flatten (Value.vdict e)) := by
  induction es with
  | nil => intro l; rfl
  | cons e rest ih =>
    intro l
    simp only [get_feed_aux, skip_entry, List.map]
    by_cases hd : is_not_none (get_updated_date e) <;> simp [hd, ih]

/-- The first pair `save_checkpoint` writes is always `last_run`, so
looking it up returns the value that was passed. -/
theorem save_checkpoint_last_run (lr : Int) (led : Option Value) :
    alist_lookup (save_checkpoint lr led) "last_run" = some lr := by
  unfold save_checkpoint
  by_cases h : is_not_none led <;> simp [h, alist_lookup]

/-- C7: a storage-not-found checkpoint read (`IOError`) and a
malformed-data read (`ValueError`) leave the run identical: both set
`checkpoint_data` to `None`, so `include_later_than` is absent, every
feed entry is emitted (a full unfiltered import), and the run still
reaches the checkpoint save (with `None` passed for the prior last run).
Neither failure aborts the run. -/
theorem run_checkpoint_read_failures (g : Option Int → Int) (ioc : Bool)
    (es : List Fields) :
    run g StoreState.corrupt ioc es = run g StoreState.empty ioc es ∧
    (run g StoreState.corrupt ioc es).later_than_used = none ∧
    (run g StoreState.corrupt ioc es).emitted
      = es.map (fun e => flatten (Value.vdict e)) ∧
    alist_lookup (run g StoreState.corrupt ioc es).saved "last_run"
      = some (g none) := by
  refine ⟨rfl, ?_, ?_, ?_⟩
  · cases ioc <;> rfl
  · cases ioc <;> exact get_feed_aux_none_fst es none
  · cases ioc <;> exact save_checkpoint_last_run (g none) _

/-- C1: the checkpoint persisted by `save_checkpoint` stores the run
time under the key `last_run`, but `run` reads the prior value back under
the key `last_ran`; a prior checkpoint therefore never supplies its
stored `last_run` to `get_non_deviated_last_run` — `None` is passed
instead, contradicting spec 4.5 step 6. -/
theorem run_ignores_stored_last_run :
    alist_lookup (save_checkpoint 12345 none) "last_run" = some 12345 ∧
    (run (fun _ => 0) (StoreState.saved (save_checkpoint 12345 none)) true
      []).last_ran_passed = none :=
  ⟨rfl, rfl⟩

/-- C2 (counterexample): flattening `{"a": {"b": 1, "c": [True, None]}}`
stores the integer `1` under `"a.b"` as-is — `1` passes the
`[True, False, None]` membership test because `1 == True` in Python — and
the stored value is not the string `"1"` the claim requires. -/
theorem flatten_nested_example_not_stringified :
    alist_lookup (flatten (Value.vdict (Fields.fcons "a" (Value.vdict
      (Fields.fcons "b" (Value.vint 1) (Fields.fcons "c" (Value.vlist
        (Values.lcons (Value.vbool true) (Values.lcons Value.vnone
          Values.lnil))) Fields.fnil))) Fields.fnil))) "a.b"
      = some (Value.vint 1) ∧
    Value.vint 1 ≠ Value.vstr "1" :=
  ⟨rfl, fun hcon => Value.noConfusion hcon⟩

/-- C2 (amended): flattening `{"a": {"b": 1, "c": [True, None]}}` with
empty prefix yields exactly `{"a.b": 1, "a.c.0": True, "a.c.1": None}`:
booleans and null are stored as-is, the integers `0` and `1` also pass
the boolean/null membership test (Python `==` equality) and are stored
as-is, and every other scalar is stored as its string representation. -/
theorem flatten_nested_example_value :
    flatten (Value.vdict (Fields.fcons "a" (Value.vdict
      (Fields.fcons "b" (Value.vint 1) (Fields.fcons "c" (Value.vlist
        (Values.lcons (Value.vbool true) (Values.lcons Value.vnone
          Values.lnil))) Fields.fnil))) Fields.fnil))
      = [("a.b", Value.vint 1), ("a.c.0", Value.vbool true),
         ("a.c.1", Value.vnone)] := rfl

/-- C9: `get_updated_date` returns the entry's `updated_parsed` value
when that key is present, else its `published_parsed` value when present,
else `None`; it is a pure function of the entry. -/
theorem get_updated_date_priority (entry : Fields) :
    (∀ v, fields_lookup entry "updated_parsed" = some v →
      get_updated_date entry = some v) ∧
    (fields_lookup entry "updated_parsed" = none →
      ∀ v, fields_lookup entry "published_parsed" = some v →
        get_updated_date entry = some v) ∧
    (fields_lookup entry "updated_parsed" = none →
      fields_lookup entry "published_parsed" = none →
      get_updated_date entry = none) := by
  refine ⟨?_, ?_, ?_⟩ <;> intros <;> simp_all [get_updated_date]

/-- Witness for C9 at concrete entries: with both timestamps present the
updated one wins; with only `published_parsed` it is returned; with
neither the result is `None`. -/
theorem get_updated_date_priority_witness :
    get_updated_date (Fields.fcons "updated_parsed"
        (Value.vtime ⟨2021, 1, 2, 3, 4, 5, 5, 2, 0⟩)
        (Fields.fcons "published_parsed" (Value.vtime ⟨2020, 6, 7, 8, 9, 10, 0, 159, 0⟩)
          Fields.fnil))
      = some (Value.vtime ⟨2021, 1, 2, 3, 4, 5, 5, 2, 0⟩) ∧
    get_updated_date (Fields.fcons "published_parsed"
        (Value.vtime ⟨2020, 6, 7, 8, 9, 10, 0, 159, 0⟩) Fields.fnil)
      = some (Value.vtime ⟨2020, 6, 7, 8, 9, 10, 0, 159, 0⟩) ∧
    get_updated_date (Fields.fcons "title" (Value.vstr "t") Fields.fnil)
      = none :=
  ⟨(get_updated_date_priority (Fields.fcons "updated_parsed"
      (Value.vtime ⟨2021, 1, 2, 3, 4, 5, 5, 2, 0⟩)
      (Fields.fcons "published_parsed" (Value.vtime ⟨2020, 6, 7, 8, 9, 10, 0, 159, 0⟩)
        Fields.fnil))).1 _ rfl,
   (get_updated_date_priority (Fields.fcons "published_parsed"
      (Value.vtime ⟨2020, 6, 7, 8, 9, 10, 0, 159, 0⟩) Fields.fnil)).2.1 rfl _ rfl,
   (get_updated_date_priority (Fields.fcons "title" (Value.vstr "t")
      Fields.fnil)).2.2 rfl rfl⟩

/-- C10: flattening a bare scalar (neither dict nor list) with the
default empty prefix stores it under the empty-string key: the result is
exactly the one-entry mapping from `""` to the stored form of the
value. -/
theorem flatten_scalar_under_empty_key (v : Value) (h : is_scalar v = true) :
    flatten v = [("", leaf_store v)] := by
  cases v with
  | vdict fs => simp [is_scalar] at h
  | vlist vs => simp [is_scalar] at h
  | vtime t => simp [is_scalar] at h
  | vnone => rfl
  | vbool b => rfl
  | vstr s => rfl
  | vint n =>
    by_cases hn : py_in_tfn (Value.vint n) <;>
      simp [flatten, flatten_aux, leaf_store, hn, dinsert, has_key]

/-- Witness for C10: a bare string scalar flattens to the single binding
at the empty-string key. -/
theorem flatten_scalar_under_empty_key_witness :
    is_scalar (Value.vstr "x") = true ∧
    flatten (Value.vstr "x") = [("", leaf_store (Value.vstr "x"))] :=
  ⟨rfl, flatten_scalar_under_empty_key (Value.vstr "x") rfl⟩

/-- C6: saving a checkpoint with a present `last_entry_date` persists
`last_run` as given plus the date's numeric epoch encoding; loading
returns exactly the saved record, and decoding the stored number yields
the original `struct_time`; with an absent date the persisted record
omits the `last_entry_date` field entirely. -/
theorem checkpoint_save_load_roundtrip (store : StoreState) (lr : Int)
    (t : StructTime) (h : valid_time t) :
    get_checkpoint_data (save_checkpoint_data store
        (save_checkpoint lr (some (Value.vtime t))))
      = Except.ok (save_checkpoint lr (some (Value.vtime t))) ∧
    (alist_lookup (save_checkpoint lr (some (Value.vtime t)))
        "last_entry_date").map localtime = some t ∧
    alist_lookup (save_checkpoint lr (some (Value.vtime t))) "last_run"
      = some lr ∧
    alist_lookup (save_checkpoint lr none) "last_entry_date" = none := by
  refine ⟨rfl, ?_, ?_, rfl⟩
  · show (some (mktime_value (Value.vtime t))).map localtime = some t
    simp [mktime_value, localtime_mktime t h]
  · exact save_checkpoint_last_run lr (some (Value.vtime t))

/-- Witness for C6 at a concrete date and run time. -/
theorem checkpoint_save_load_roundtrip_witness :
    valid_time ⟨2021, 1, 2, 3, 4, 5, 5, 2, 0⟩ ∧
    (alist_lookup (save_checkpoint 99 (some (Value.vtime ⟨2021, 1, 2, 3, 4, 5, 5, 2, 0⟩)))
        "last_entry_date").map localtime = some ⟨2021, 1, 2, 3, 4, 5, 5, 2, 0⟩ :=
  ⟨by decide,
   (checkpoint_save_load_roundtrip StoreState.empty 99 ⟨2021, 1, 2, 3, 4, 5, 5, 2, 0⟩
      (by decide)).2.1⟩

/-- For the head entry, the loop's skip test agrees with the claims'
exclusion predicate. -/
theorem skip_entry_eq_excluded (e : Fields) (tOpt : Option StructTime)
    (d : Value) (hd : get_updated_date e = some d) :
    skip_entry d (tOpt.map Value.vtime) = excluded_spec tOpt e := by
  cases d <;> cases tOpt <;>
    simp [skip_entry, value_le, excluded_spec, entry_date_st, hd]

/-- The entry loop keeps exactly the entries the exclusion rule keeps:
with threshold `tOpt`, the emitted list is the feed filtered by "not
(dated and tOpt present and date <= tOpt)", flattened, in feed order —
regardless of the running `latest_date` accumulator. -/
theorem get_feed_aux_filter (tOpt : Option StructTime) (es : List Fields) :
    ∀ l : Option Value,
      (get_feed_aux (tOpt.map Value.vtime) es l).1
        = (es.filter (fun e => !(excluded_spec tOpt e))).map
            (fun e => flatten (Value.vdict e)) := by
  induction es with
  | nil => intro l; rfl
  | cons e rest ih =>
    intro l
    rw [List.filter_cons]
    rcases hd : get_updated_date e with _ | v
    · have hexc : excluded_spec tOpt e = false := by
        cases tOpt <;> simp [excluded_spec, entry_date_st, hd]
      simp [get_feed_aux, hd, is_not_none, hexc, ih]
    · have hskip := skip_entry_eq_excluded e tOpt v hd
      cases v with
      | vnone =>
        have hexc : excluded_spec tOpt e = false := by
          cases tOpt <;> simp [excluded_spec, entry_date_st, hd]
        simp [get_feed_aux, hd, is_not_none, hexc, ih]
      | vtime t =>
        rcases hexc : excluded_spec tOpt e with _ | _ <;>
          rw [hexc] at hskip <;>
          simp [get_feed_aux, hd, is_not_none, hskip, hexc, ih]
      | vbool b =>
        rcases hexc : excluded_spec tOpt e with _ | _ <;>
          rw [hexc] at hskip <;>
          simp [get_feed_aux, hd, is_not_none, hskip, hexc, ih]
      | vint n =>
        rcases hexc : excluded_spec tOpt e with _ | _ <;>
          rw [hexc] at hskip <;>
          simp [get_feed_aux, hd, is_not_none, hskip, hexc, ih]
      | vstr s =>
        rcases hexc : excluded_spec tOpt e with _ | _ <;>
          rw [hexc] at hskip <;>
          simp [get_feed_aux, hd, is_not_none, hskip, hexc, ih]
      | vdict fs =>
        rcases hexc : excluded_spec tOpt e with _ | _ <;>
          rw [hexc] at hskip <;>
          simp [get_feed_aux, hd, is_not_none, hskip, hexc, ih]
      | vlist vs =>
        rcases hexc : excluded_spec tOpt e with _ | _ <;>
          rw [hexc] at hskip <;>
          simp [get_feed_aux, hd, is_not_none, hskip, hexc, ih]

/-- C3: in `get_feed`, an entry is excluded iff it has a CanonicalDate,
the `include_later_than` threshold is present, and its CanonicalDate is
less than or equal to the threshold (ties excluded); entries with no
CanonicalDate are never excluded; every non-excluded entry appears
flattened in original feed order. -/
theorem get_feed_excludes_iff (es : List Fields) (tOpt : Option StructTime) :
    (get_feed es (tOpt.map Value.vtime)).1
      = (es.filter (fun e => !(excluded_spec tOpt e))).map
          (fun e => flatten (Value.vdict e)) :=
  get_feed_aux_filter tOpt es none

/-- Boolean `<=` on dates unfolded. -/
theorem st_le_iff {a b : StructTime} : st_le a b = true ↔ st_lt b a = false := by
  simp [st_le]

/-- The loop's `latest_date` accumulator computes the fold of the
claims' max over the CanonicalDates, for any threshold: the skip branch
does not touch the accumulator. -/
theorem get_feed_aux_latest (ilt : Option Value) (es : List Fields)
    (hwf : entries_wf es = true) :
    ∀ lt0 : Option StructTime,
      (get_feed_aux ilt es (lt0.map Value.vtime)).2
        = ((dates_of es).foldl st_max lt0).map Value.vtime := by
  induction es with
  | nil => intro lt0; rfl
  | cons e rest ih =>
    have hwf1 : date_wf (get_updated_date e) = true ∧ entries_wf rest = true := by
      simpa [entries_wf, List.all_cons, Bool.and_eq_true] using hwf
    intro lt0
    have ihr := ih hwf1.2
    rcases hd : get_updated_date e with _ | v
    · have hds : dates_of (e :: rest) = dates_of rest := by
        simp [dates_of, List.filterMap_cons, entry_date_st, hd]
      rw [hds]
      simpa [get_feed_aux, hd, is_not_none] using ihr lt0
    · cases v with
      | vnone =>
        have hds : dates_of (e :: rest) = dates_of rest := by
          simp [dates_of, List.filterMap_cons, entry_date_st, hd]
        rw [hds]
        simpa [get_feed_aux, hd, is_not_none] using ihr lt0
      | vtime t =>
        have hds : dates_of (e :: rest) = t :: dates_of rest := by
          simp [dates_of, List.filterMap_cons, entry_date_st, hd]
        rw [hds, List.foldl_cons]
        have hlat : (match lt0.map Value.vtime with
            | none => some (Value.vtime t)
            | some l => if value_lt l (Value.vtime t) = true
                then some (Value.vtime t) else some l)
            = (st_max lt0 t).map Value.vtime := by
          cases lt0 with
          | none => rfl
          | some m =>
            simp only [Option.map_some', st_max, value_lt]
            split <;> simp_all
        by_cases hskip : skip_entry (Value.vtime t) ilt = true <;>
          · simp only [get_feed_aux, hd, is_not_none, hskip, Option.getD,
              if_true, if_false, ite_true, ite_false, Bool.false_eq_true]
            simp only [hlat]
            simpa using ihr (st_max lt0 t)
      | vbool b => simp [date_wf, hd] at hwf1
      | vint n => simp [date_wf, hd] at hwf1
      | vstr s => simp [date_wf, hd] at hwf1
      | vdict fs => simp [date_wf, hd] at hwf1
      | vlist vs => simp [date_wf, hd] at hwf1

/-- The fold of `st_max` is absent only when it starts absent and sees no
date. -/
theorem foldl_st_max_eq_none (ds : List StructTime) :
    ∀ a, ds.foldl st_max a = none → a = none ∧ ds = [] := by
  induction ds with
  | nil => intro a h; exact ⟨h, rfl⟩
  | cons d rest ih =>
    intro a h
    rw [List.foldl_cons] at h
    have := (ih _ h).1
    exfalso
    cases a with
    | none => simp [st_max] at this
    | some m =>
      simp only [st_max] at this
      split at this <;> simp at this

/-- The fold of `st_max` returns its starting value or a member, is an
upper bound of every member, and dominates its starting value. -/
theorem foldl_st_max_spec (ds : List StructTime) :
    ∀ a m, ds.foldl st_max a = some m →
      (a = some m ∨ m ∈ ds) ∧
      (∀ d ∈ ds, st_le d m = true) ∧
      (∀ x, a = some x → st_le x m = true) := by
  induction ds with
  | nil =>
    intro a m h
    rw [List.foldl_nil] at h
    refine ⟨Or.inl h, by simp, ?_⟩
    intro x hx
    rw [hx] at h
    injection h with h
    subst h
    simp [st_le_iff, st_lt_irrefl]
  | cons d rest ih =>
    intro a m h
    rw [List.foldl_cons] at h
    obtain ⟨hmem, hub, hinit⟩ := ih (st_max a d) m h
    have hd_le : st_le d m = true := by
      cases a with
      | none => exact hinit d rfl
      | some p =>
        simp only [st_max] at hinit
        by_cases hpd : st_lt p d = true
        · rw [if_pos hpd] at hinit
          exact hinit d rfl
        · rw [if_neg hpd] at hinit
          have hpm := hinit p rfl
          rw [st_le_iff] at hpm ⊢
          by_cases hmd : st_lt m d = true
          · exfalso
            by_cases hpm2 : st_lt p m = true
            · exact hpd (st_lt_trans hpm2 hmd)
            · have hpmf : st_lt p m = false := by simpa using hpm2
              have hpeq : p = m := st_lt_antisymm hpmf hpm
              subst hpeq
              exact hpd hmd
          · simpa using hmd
    refine ⟨?_, ?_, ?_⟩
    · rcases hmem with hmem | hmem
      · cases a with
        | none =>
          simp only [st_max] at hmem
          injection hmem with hmem
          exact Or.inr (by rw [hmem]; exact List.mem_cons_self m rest)
        | some p =>
          simp only [st_max] at hmem
          split at hmem
          · injection hmem with hmem
            exact Or.inr (by rw [hmem]; exact List.mem_cons_self m rest)
          · exact Or.inl hmem
      · exact Or.inr (List.mem_cons_of_mem d hmem)
    · intro x hx
      rcases List.mem_cons.mp hx with hx | hx
      · rw [hx]; exact hd_le
      · exact hub x hx
    · intro x hx
      cases a with
      | none => simp at hx
      | some p =>
        injection hx with hx
        subst hx
        simp only [st_max] at hinit
        by_cases hpd : st_lt p d = true
        · rw [if_pos hpd] at hinit
          have hdm := hinit d rfl
          rw [st_le_iff] at hdm ⊢
          by_cases hmp : st_lt m p = true
          · exact absurd (st_lt_trans hmp hpd) (by rw [hdm]; simp)
          · simpa using hmp
        · rw [if_neg hpd] at hinit
          exact hinit p rfl

/-- C4: the `latest_date` that `get_feed` returns is the maximum
CanonicalDate over all parsed entries that have one (absent when none
has one), and it is unaffected by the `include_later_than` filter — an
excluded entry still contributes its date. -/
theorem get_feed_latest_date_spec (es : List Fields) (ilt : Option Value)
    (hwf : entries_wf es = true) :
    (get_feed es ilt).2 = (max_date_of es).map Value.vtime ∧
    (get_feed es ilt).2 = (get_feed es none).2 ∧
    (max_date_of es = none ↔ dates_of es = []) ∧
    (∀ m, max_date_of es = some m →
      m ∈ dates_of es ∧ ∀ d ∈ dates_of es, st_le d m = true) := by
  have h1 : (get_feed es ilt).2 = (max_date_of es).map Value.vtime :=
    get_feed_aux_latest ilt es hwf none
  have h2 : (get_feed es none).2 = (max_date_of es).map Value.vtime :=
    get_feed_aux_latest none es hwf none
  refine ⟨h1, by rw [h1, h2], ?_, ?_⟩
  · constructor
    · intro h
      exact (foldl_st_max_eq_none _ none h).2
    · intro h
      simp [max_date_of, h]
  · intro m hm
    obtain ⟨hmem, hub, _⟩ := foldl_st_max_spec (dates_of es) none m hm
    rcases hmem with hmem | hmem
    · simp at hmem
    · exact ⟨hmem, hub⟩

/-- Witness for C4: a two-entry feed whose first entry is the newest;
filtering at the newest date excludes everything yet `latest_date` is
still that newest date. -/
theorem get_feed_latest_date_spec_witness :
    entries_wf [Fields.fcons "updated_parsed"
        (Value.vtime ⟨2021, 1, 3, 0, 0, 0, 6, 3, 0⟩) Fields.fnil,
      Fields.fcons "updated_parsed"
        (Value.vtime ⟨2021, 1, 1, 0, 0, 0, 4, 1, 0⟩) Fields.fnil] = true ∧
    (get_feed [Fields.fcons "updated_parsed"
        (Value.vtime ⟨2021, 1, 3, 0, 0, 0, 6, 3, 0⟩) Fields.fnil,
      Fields.fcons "updated_parsed"
        (Value.vtime ⟨2021, 1, 1, 0, 0, 0, 4, 1, 0⟩) Fields.fnil]
        (some (Value.vtime ⟨2021, 1, 3, 0, 0, 0, 6, 3, 0⟩))).2
      = (max_date_of [Fields.fcons "updated_parsed"
          (Value.vtime ⟨2021, 1, 3, 0, 0, 0, 6, 3, 0⟩) Fields.fnil,
        Fields.fcons "updated_parsed"
          (Value.vtime ⟨2021, 1, 1, 0, 0, 0, 4, 1, 0⟩) Fields.fnil]).map Value.vtime :=
  ⟨rfl,
   (get_feed_latest_date_spec
      [Fields.fcons "updated_parsed"
          (Value.vtime ⟨2021, 1, 3, 0, 0, 0, 6, 3, 0⟩) Fields.fnil,
        Fields.fcons "updated_parsed"
          (Value.vtime ⟨2021, 1, 1, 0, 0, 0, 4, 1, 0⟩) Fields.fnil]
      (some (Value.vtime ⟨2021, 1, 3, 0, 0, 0, 6, 3, 0⟩)) rfl).1⟩

/-- Lines 179-180 of `run` compute exactly the claims' `max` with absent
losing: on `struct_time`-or-absent operands, `update_led` is
`spec_max_opt`. -/
theorem update_led_map (p m : Option StructTime) :
    update_led (p.map Value.vtime) (m.map Value.vtime)
      = (spec_max_opt p m).map Value.vtime := by
  cases p with
  | none => cases m <;> rfl
  | some x =>
    cases m with
    | none => rfl
    | some y =>
      by_cases h : st_lt x y = true <;>
        simp [update_led, is_not_none, value_gt_opt, value_lt, spec_max_opt, h]

/-- The persisted `last_entry_date` field is the epoch encoding of the
date handed to `save_checkpoint`, and is omitted when the date is
absent. -/
theorem save_checkpoint_led_lookup (lr : Int) (m : Option StructTime) :
    alist_lookup (save_checkpoint lr (m.map Value.vtime)) "last_entry_date"
      = m.map mktime := by
  cases m <;>
    simp [save_checkpoint, is_not_none, alist_lookup, mktime_value]

/-- C5: in every run that reaches the checkpoint save, the persisted
`last_entry_date` is the max of the previous `last_entry_date` (as loaded
and used as the run's threshold) and the `latest_date` computed from the
feed — which is what `get_feed` returns for this run — with absent losing
to any present value. -/
theorem run_saves_max_entry_date (g : Option Int → Int) (store : StoreState)
    (ioc : Bool) (es : List Fields) (hwf : entries_wf es = true) :
    (get_feed es ((run g store ioc es).later_than_used.map Value.vtime)).2
      = (max_date_of es).map Value.vtime ∧
    alist_lookup (run g store ioc es).saved "last_entry_date"
      = (spec_max_opt ((run g store ioc es).later_than_used)
          (max_date_of es)).map mktime := by
  refine ⟨get_feed_aux_latest _ es hwf none, ?_⟩
  have hsaved : (run g store ioc es).saved
      = save_checkpoint (g ((run g store ioc es).last_ran_passed))
          (update_led (((run g store ioc es).later_than_used).map Value.vtime)
            (get_feed es
              (((run g store ioc es).later_than_used).map Value.vtime)).2) :=
    rfl
  have hl : (get_feed es
        (((run g store ioc es).later_than_used).map Value.vtime)).2
      = (max_date_of es).map Value.vtime :=
    get_feed_aux_latest _ es hwf none
  rw [hsaved, hl, update_led_map, save_checkpoint_led_lookup]

/-- Witness for C5: a prior checkpoint at Jan 2 2021 and a feed whose
only entry is dated Jan 5 2021. -/
theorem run_saves_max_entry_date_witness :
    entries_wf [Fields.fcons "updated_parsed"
        (Value.vtime ⟨2021, 1, 5, 0, 0, 0, 1, 5, 0⟩) Fields.fnil] = true ∧
    alist_lookup (run (fun _ => 0)
        (StoreState.saved [("last_run", 3),
          ("last_entry_date", mktime ⟨2021, 1, 2, 0, 0, 0, 5, 2, 0⟩)]) true
        [Fields.fcons "updated_parsed"
          (Value.vtime ⟨2021, 1, 5, 0, 0, 0, 1, 5, 0⟩) Fields.fnil]).saved
        "last_entry_date"
      = (spec_max_opt ((run (fun _ => 0)
          (StoreState.saved [("last_run", 3),
            ("last_entry_date", mktime ⟨2021, 1, 2, 0, 0, 0, 5, 2, 0⟩)]) true
          [Fields.fcons "updated_parsed"
            (Value.vtime ⟨2021, 1, 5, 0, 0, 0, 1, 5, 0⟩) Fields.fnil]).later_than_used)
          (max_date_of [Fields.fcons "updated_parsed"
            (Value.vtime ⟨2021, 1, 5, 0, 0, 0, 1, 5, 0⟩) Fields.fnil])).map mktime :=
  ⟨rfl,
   (run_saves_max_entry_date (fun _ => 0)
      (StoreState.saved [("last_run", 3),
        ("last_entry_date", mktime ⟨2021, 1, 2, 0, 0, 0, 5, 2, 0⟩)]) true
      [Fields.fcons "updated_parsed"
        (Value.vtime ⟨2021, 1, 5, 0, 0, 0, 1, 5, 0⟩) Fields.fnil] rfl).2⟩

/-- The decimal representation is never the empty character list. -/
theorem nat_str_aux_ne_nil (f n : Nat) (h : 0 < f) : nat_str_aux f n ≠ [] := by
  cases f with
  | zero => omega
  | succ f =>
    simp only [nat_str_aux]
    split <;> simp

/-- Every character of the decimal representation is a digit
character. -/
theorem nat_str_aux_digits : ∀ f n c, c ∈ nat_str_aux f n →
    ∃ k, k < 10 ∧ c = Nat.digitChar k := by
  intro f
  induction f with
  | zero => intro n c hc; simp [nat_str_aux] at hc
  | succ f ih =>
    intro n c hc
    simp only [nat_str_aux] at hc
    by_cases h : n < 10
    · rw [if_pos h] at hc
      simp at hc
      exact ⟨n, h, hc⟩
    · rw [if_neg h] at hc
      rcases List.mem_append.mp hc with hc | hc
      · exact ih _ _ hc
      · simp at hc
        exact ⟨n % 10, by omega, hc⟩

/-- Decoding a digit character of value below ten recovers its value. -/
theorem digit_val_digitChar (k : Nat) (h : k < 10) :
    digit_val (Nat.digitChar k) = k := by
  interval_cases k <;> decide

/-- Digit characters are not the dot character. -/
theorem digitChar_ne_dot (k : Nat) (h : k < 10) : Nat.digitChar k ≠ '.' := by
  interval_cases k <;> decide

/-- Decoding after appending one digit. -/
theorem dec_val_append (l : List Char) (c : Char) :
    dec_val (l ++ [c]) = dec_val l * 10 + digit_val c := by
  simp [dec_val, List.foldl_append]

/-- The decimal representation decodes to the number it encodes. -/
theorem dec_val_nat_str_aux : ∀ f n, n < f → dec_val (nat_str_aux f n) = n := by
  intro f
  induction f with
  | zero => omega
  | succ f ih =>
    intro n hn
    simp only [nat_str_aux]
    by_cases h : n < 10
    · rw [if_pos h]
      simp [dec_val, digit_val_digitChar n h]
    · rw [if_neg h]
      rw [dec_val_append]
      have h1 : n / 10 < n := Nat.div_lt_self (by omega) (by omega)
      rw [ih (n / 10) (by omega), digit_val_digitChar _ (Nat.mod_lt n (by omega))]
      omega

/-- Python `str` on naturals is injective. -/
theorem nat_str_inj {a b : Nat} (h : nat_str a = nat_str b) : a = b := by
  have hdata : nat_str_aux (a + 1) a = nat_str_aux (b + 1) b :=
    congrArg String.data h
  have ha := dec_val_nat_str_aux (a + 1) a (by omega)
  have hb := dec_val_nat_str_aux (b + 1) b (by omega)
  rw [hdata, hb] at ha
  exact ha.symm

/-- The decimal representation of a natural is nonempty. -/
theorem nat_str_ne_empty (n : Nat) : (nat_str n).data ≠ [] :=
  nat_str_aux_ne_nil (n + 1) n (by omega)

/-- The decimal representation of a natural contains no dot. -/
theorem dot_not_in_nat_str (n : Nat) : '.' ∉ (nat_str n).data := by
  intro hmem
  obtain ⟨k, hk, hc⟩ := nat_str_aux_digits (n + 1) n '.' hmem
  exact digitChar_ne_dot k hk hc.symm

/-- A dot-separated concatenation determines the part before the first
dot: if neither head contains a dot, equal concatenations have equal
heads and equal tails. -/
theorem chain_split : ∀ (x y A B : List Char), '.' ∉ x → '.' ∉ y →
    x ++ '.' :: A = y ++ '.' :: B → x = y ∧ A = B := by
  intro x
  induction x with
  | nil =>
    intro y A B hx hy h
    cases y with
    | nil => simpa using h
    | cons b ys =>
      simp only [List.nil_append, List.cons_append, List.cons.injEq] at h
      simp only [List.mem_cons, not_or] at hy
      exact absurd h.1 hy.1
  | cons a xs ih =>
    intro y A B hx hy h
    cases y with
    | nil =>
      simp only [List.nil_append, List.cons_append, List.cons.injEq] at h
      simp only [List.mem_cons, not_or] at hx
      exact absurd h.1.symm hx.1
    | cons b ys =>
      simp only [List.cons_append, List.cons.injEq] at h
      simp only [List.mem_cons, not_or] at hx hy
      obtain ⟨hxy, hAB⟩ := ih ys A B hx.2 hy.2 h.2
      exact ⟨by rw [h.1, hxy], hAB⟩

/-- The character data of a dotted join with at least two components. -/
theorem dot_join_data_cons (c x : String) (r : List String) :
    (dot_join (c :: x :: r)).data = c.data ++ '.' :: (dot_join (x :: r)).data := by
  simp [dot_join, pre_dot, String.data_append]

/-- Dotted joins of nonempty dot-free components are injective. -/
theorem dot_join_inj : ∀ (p q : List String),
    (∀ c ∈ p, c.data ≠ [] ∧ '.' ∉ c.data) →
    (∀ c ∈ q, c.data ≠ [] ∧ '.' ∉ c.data) →
    dot_join p = dot_join q → p = q := by
  intro p
  induction p with
  | nil =>
    intro q hp hq h
    cases q with
    | nil => rfl
    | cons c qs =>
      exfalso
      have hd := congrArg String.data h
      cases qs with
      | nil =>
        simp only [dot_join, pre_dot, String.data_append] at hd
        exact (hq c (List.mem_cons_self c [])).1 (by simpa using hd.symm)
      | cons x r =>
        rw [dot_join_data_cons] at hd
        rcases List.append_eq_nil.mp hd.symm with ⟨h1, h2⟩
        simp at h2
  | cons c ps ih =>
    intro q hp hq h
    cases q with
    | nil =>
      exfalso
      have hd := congrArg String.data h
      cases ps with
      | nil =>
        simp only [dot_join, pre_dot, String.data_append] at hd
        exact (hp c (List.mem_cons_self c [])).1 (by simpa using hd)
      | cons x r =>
        rw [dot_join_data_cons] at hd
        rcases List.append_eq_nil.mp hd with ⟨h1, h2⟩
        simp at h2
    | cons b qs =>
      have hd := congrArg String.data h
      cases ps with
      | nil =>
        cases qs with
        | nil =>
          simp only [dot_join, pre_dot, String.append_empty] at h
          rw [h]
        | cons y s =>
          exfalso
          rw [dot_join_data_cons] at hd
          simp only [dot_join, pre_dot, String.append_empty] at hd
          exact (hp c (List.mem_cons_self c [])).2
            (by rw [hd]; exact List.mem_append_right _ (List.mem_cons_self _ _))
      | cons x r =>
        cases qs with
        | nil =>
          exfalso
          rw [dot_join_data_cons] at hd
          simp only [dot_join, pre_dot, String.append_empty] at hd
          exact (hq b (List.mem_cons_self b [])).2
            (by rw [← hd]; exact List.mem_append_right _ (List.mem_cons_self _ _))
        | cons y s =>
          rw [dot_join_data_cons, dot_join_data_cons] at hd
          obtain ⟨hcb, htail⟩ := chain_split c.data b.data _ _
            (hp c (List.mem_cons_self _ _)).2 (hq b (List.mem_cons_self _ _)).2 hd
          have hcb' : c = b := String.ext hcb
          have htail' : dot_join (x :: r) = dot_join (y :: s) := String.ext htail
          have := ih (y :: s) (fun e he => hp e (List.mem_cons_of_mem c he))
            (fun e he => hq e (List.mem_cons_of_mem b he)) htail'
          rw [hcb', this]

/-- `iterative_name` appends a dot to a nonempty prefix. -/
theorem iter_name_of_ne (pre : String) (h : pre.data ≠ []) :
    iter_name pre = pre ++ "." := by
  have hl : 0 < pre.length := by
    have : 0 < pre.data.length := List.length_pos.mpr h
    exact this
  simp [iter_name, hl]

/-- Under a nonempty prefix, the flattened key of a path is the prefix
followed by one dotted component per path element. -/
theorem key_of_pre : ∀ (p : List String) (pre : String), pre.data ≠ [] →
    key_of pre p = pre ++ pre_dot p := by
  intro p
  induction p with
  | nil =>
    intro pre h
    simp [key_of, pre_dot, String.append_empty]
  | cons c p ih =>
    intro pre h
    simp only [key_of]
    rw [iter_name_of_ne pre h]
    rw [ih (pre ++ "." ++ c) (by simp [String.data_append])]
    apply String.ext
    simp [String.data_append, pre_dot]

/-- Under the empty prefix (the top-level `flatten` call), the key of a
path of nonempty components is its dotted join. -/
theorem key_of_empty : ∀ (p : List String), (∀ c ∈ p, c.data ≠ []) →
    key_of "" p = dot_join p := by
  intro p hp
  cases p with
  | nil => rfl
  | cons c ps =>
    simp only [key_of]
    have h0 : iter_name "" ++ c = c := by
      simp [iter_name, String.empty_append]
    rw [h0, key_of_pre ps c (hp c (List.mem_cons_self c ps))]
    rfl

/-- Every leaf of a dict has a path starting with one of its keys. -/
theorem leaves_fields_heads : ∀ (fs : Fields) (pw : List String × Value),
    pw ∈ leaves_fields fs →
    ∃ k p, pw.1 = k :: p ∧ has_key_fields fs k = true
  | Fields.fnil => by simp [leaves_fields]
  | Fields.fcons k v rest => by
    intro pw hpw
    simp only [leaves_fields, List.mem_append] at hpw
    rcases hpw with hpw | hpw
    · simp only [List.mem_map] at hpw
      obtain ⟨qw, _, hmap⟩ := hpw
      exact ⟨k, qw.1, by rw [← hmap], by simp [has_key_fields]⟩
    · obtain ⟨k', p', hp', hk'⟩ := leaves_fields_heads rest pw hpw
      exact ⟨k', p', hp', by simp [has_key_fields, hk']⟩

/-- Every leaf of a list suffix starting at index `i` has a path
starting with the decimal representation of some index at least `i`. -/
theorem leaves_items_heads : ∀ (vs : Values) (i : Nat) (pw : List String × Value),
    pw ∈ leaves_items vs i →
    ∃ j p, pw.1 = nat_str j :: p ∧ i ≤ j
  | Values.lnil => by simp [leaves_items]
  | Values.lcons v rest => by
    intro i pw hpw
    simp only [leaves_items, List.mem_append] at hpw
    rcases hpw with hpw | hpw
    · simp only [List.mem_map] at hpw
      obtain ⟨qw, _, hmap⟩ := hpw
      exact ⟨i, qw.1, by rw [← hmap], Nat.le_refl i⟩
    · obtain ⟨j, p', hp', hj⟩ := leaves_items_heads rest (i + 1) pw hpw
      exact ⟨j, p', hp', by omega⟩

/-- Every tuple-element leaf of a `struct_time` sits at a singleton
path whose component is the stringified index, at least the starting
one. -/
theorem int_leaves_heads : ∀ (es : List Int) (i : Nat) (pw : List String × Value),
    pw ∈ int_leaves es i → ∃ j e, i ≤ j ∧ pw = ([nat_str j], Value.vint e) := by
  intro es
  induction es with
  | nil => intro i pw hpw; simp [int_leaves] at hpw
  | cons e rest ih =>
    intro i pw hpw
    simp only [int_leaves, List.mem_cons] at hpw
    rcases hpw with hpw | hpw
    · exact ⟨i, e, Nat.le_refl i, hpw⟩
    · obtain ⟨j, e2, hj, hp⟩ := ih (i + 1) pw hpw
      exact ⟨j, e2, by omega, hp⟩

/-- Tuple-element path components are nonempty and dot-free. -/
theorem int_leaves_comps_good (es : List Int) (i : Nat) :
    ∀ pw ∈ int_leaves es i, ∀ c ∈ pw.1, c.data ≠ [] ∧ '.' ∉ c.data := by
  intro pw hpw c hc
  obtain ⟨j, e, _, hp⟩ := int_leaves_heads es i pw hpw
  rw [hp] at hc
  simp at hc
  subst hc
  exact ⟨nat_str_ne_empty j, dot_not_in_nat_str j⟩

/-- Tuple-element leaves have pairwise-distinct paths. -/
theorem int_leaves_paths_nodup : ∀ (es : List Int) (i : Nat),
    ((int_leaves es i).map Prod.fst).Nodup := by
  intro es
  induction es with
  | nil => intro i; simp [int_leaves]
  | cons e rest ih =>
    intro i
    simp only [int_leaves, List.map_cons]
    rw [List.nodup_cons]
    constructor
    · intro hmem
      obtain ⟨pw, hpw, hfst⟩ := List.mem_map.mp hmem
      obtain ⟨j, e2, hj, hp⟩ := int_leaves_heads rest (i + 1) pw hpw
      rw [hp] at hfst
      simp at hfst
      have := nat_str_inj hfst
      omega
    · exact ih (i + 1)

/-- Unpacking the key well-formedness of a nonempty dict. -/
theorem good_fields_cons {k : String} {v : Value} {rest : Fields}
    (hg : good_fields (Fields.fcons k v rest) = true) :
    has_key_fields rest k = false ∧ k.data ≠ [] ∧ '.' ∉ k.data ∧
    good_keys v = true ∧ good_fields rest = true := by
  simp only [good_fields, Bool.and_eq_true, Bool.not_eq_true',
    beq_eq_false_iff_ne, decide_eq_false_iff_not] at hg
  obtain ⟨⟨⟨⟨h1, h2⟩, h3⟩, h4⟩, h5⟩ := hg
  refine ⟨h1, ?_, h3, h4, h5⟩
  intro hnil
  exact h2 (String.ext (by simp [hnil]))

mutual
/-- In a record with well-formed keys, every leaf-path component is
nonempty and dot-free. -/
theorem leaves_comps_good : ∀ (v : Value), good_keys v = true →
    ∀ pw ∈ leaves v, ∀ c ∈ pw.1, c.data ≠ [] ∧ '.' ∉ c.data := by
  intro v
  cases v with
  | vdict fs =>
    intro hg
    exact leaves_fields_comps_good fs (by simpa [good_keys] using hg)
  | vlist vs =>
    intro hg
    exact leaves_items_comps_good vs (by simpa [good_keys] using hg) 0
  | vnone =>
    intro _ pw hpw c hc
    simp [leaves] at hpw
    rw [hpw] at hc
    simp at hc
  | vbool b =>
    intro _ pw hpw c hc
    simp [leaves] at hpw
    rw [hpw] at hc
    simp at hc
  | vint n =>
    intro _ pw hpw c hc
    simp [leaves] at hpw
    rw [hpw] at hc
    simp at hc
  | vstr s =>
    intro _ pw hpw c hc
    simp [leaves] at hpw
    rw [hpw] at hc
    simp at hc
  | vtime t =>
    intro _ pw hpw c hc
    exact int_leaves_comps_good (struct_time_list t) 0 pw hpw c hc

/-- Component goodness for the leaves of a dict. -/
theorem leaves_fields_comps_good : ∀ (fs : Fields), good_fields fs = true →
    ∀ pw ∈ leaves_fields fs, ∀ c ∈ pw.1, c.data ≠ [] ∧ '.' ∉ c.data := by
  intro fs
  cases fs with
  | fnil =>
    intro _ pw hpw
    simp [leaves_fields] at hpw
  | fcons k v rest =>
    intro hg pw hpw c hc
    obtain ⟨h1, h2, h3, h4, h5⟩ := good_fields_cons hg
    simp only [leaves_fields, List.mem_append] at hpw
    rcases hpw with hpw | hpw
    · simp only [List.mem_map] at hpw
      obtain ⟨qw, hq, hmap⟩ := hpw
      rw [← hmap] at hc
      simp only [List.mem_cons] at hc
      rcases hc with hc | hc
      · subst hc; exact ⟨h2, h3⟩
      · exact leaves_comps_good v h4 qw hq c hc
    · exact leaves_fields_comps_good rest h5 pw hpw c hc

/-- Component goodness for the leaves of a list suffix. -/
theorem leaves_items_comps_good : ∀ (vs : Values), good_values vs = true →
    ∀ (i : Nat), ∀ pw ∈ leaves_items vs i, ∀ c ∈ pw.1,
      c.data ≠ [] ∧ '.' ∉ c.data := by
  intro vs
  cases vs with
  | lnil =>
    intro _ i pw hpw
    simp [leaves_items] at hpw
  | lcons v rest =>
    intro hg i pw hpw c hc
    have hg2 : good_keys v = true ∧ good_values rest = true := by
      simpa [good_values, Bool.and_eq_true] using hg
    simp only [leaves_items, List.mem_append] at hpw
    rcases hpw with hpw | hpw
    · simp only [List.mem_map] at hpw
      obtain ⟨qw, hq, hmap⟩ := hpw
      rw [← hmap] at hc
      simp only [List.mem_cons] at hc
      rcases hc with hc | hc
      · subst hc; exact ⟨nat_str_ne_empty i, dot_not_in_nat_str i⟩
      · exact leaves_comps_good v hg2.1 qw hq c hc
    · exact leaves_items_comps_good rest hg2.2 (i + 1) pw hpw c hc
end

/-- Taking paths after prepending a component is prepending to the
paths. -/
theorem map_fst_cons_map (k : String) (L : List (List String × Value)) :
    (L.map (fun pw => (k :: pw.1, pw.2))).map Prod.fst
      = (L.map Prod.fst).map (fun p => k :: p) := by
  simp [List.map_map, Function.comp]

mutual
/-- In a record with well-formed keys, distinct leaves have distinct
paths. -/
theorem leaves_paths_nodup : ∀ (v : Value), good_keys v = true →
    ((leaves v).map Prod.fst).Nodup := by
  intro v
  cases v with
  | vdict fs =>
    intro hg
    exact leaves_fields_paths_nodup fs (by simpa [good_keys] using hg)
  | vlist vs =>
    intro hg
    exact leaves_items_paths_nodup vs (by simpa [good_keys] using hg) 0
  | vnone => intro _; simp [leaves]
  | vbool b => intro _; simp [leaves]
  | vint n => intro _; simp [leaves]
  | vstr s => intro _; simp [leaves]
  | vtime t => intro _; exact int_leaves_paths_nodup (struct_time_list t) 0

/-- Path distinctness for the leaves of a dict. -/
theorem leaves_fields_paths_nodup : ∀ (fs : Fields), good_fields fs = true →
    ((leaves_fields fs).map Prod.fst).Nodup := by
  intro fs
  cases fs with
  | fnil => intro _; simp [leaves_fields]
  | fcons k v rest =>
    intro hg
    obtain ⟨h1, _, _, h4, h5⟩ := good_fields_cons hg
    simp only [leaves_fields, List.map_append]
    rw [map_fst_cons_map]
    refine List.Nodup.append ?_ (leaves_fields_paths_nodup rest h5) ?_
    · exact (leaves_paths_nodup v h4).map (fun a b hab => by simpa using hab)
    · intro p hp1 hp2
      simp only [List.mem_map] at hp1 hp2
      obtain ⟨q, _, hq⟩ := hp1
      obtain ⟨pw, hpw, hfst⟩ := hp2
      obtain ⟨k', p', hp', hk'⟩ := leaves_fields_heads rest pw hpw
      have heads : k :: q = k' :: p' := by rw [hq, ← hfst]; exact hp'
      injection heads with hk2 _
      rw [← hk2] at hk'
      rw [h1] at hk'
      exact Bool.noConfusion hk'

/-- Path distinctness for the leaves of a list suffix. -/
theorem leaves_items_paths_nodup : ∀ (vs : Values), good_values vs = true →
    ∀ (i : Nat), ((leaves_items vs i).map Prod.fst).Nodup := by
  intro vs
  cases vs with
  | lnil => intro _ i; simp [leaves_items]
  | lcons v rest =>
    intro hg i
    have hg2 : good_keys v = true ∧ good_values rest = true := by
      simpa [good_values, Bool.and_eq_true] using hg
    simp only [leaves_items, List.map_append]
    rw [map_fst_cons_map]
    refine List.Nodup.append ?_ (leaves_items_paths_nodup rest hg2.2 (i + 1)) ?_
    · exact (leaves_paths_nodup v hg2.1).map (fun a b hab => by simpa using hab)
    · intro p hp1 hp2
      simp only [List.mem_map] at hp1 hp2
      obtain ⟨q, _, hq⟩ := hp1
      obtain ⟨pw, hpw, hfst⟩ := hp2
      obtain ⟨j, p', hp', hj⟩ := leaves_items_heads rest (i + 1) pw hpw
      have heads : nat_str i :: q = nat_str j :: p' := by
        rw [hq, ← hfst]; exact hp'
      injection heads with hk2 _
      have : i = j := nat_str_inj hk2
      omega
end

/-- The flattened keys of a well-keyed record are pairwise distinct. -/
theorem gen_keys_nodup (v : Value) (hg : good_keys v = true) :
    ((leaves v).map (fun pw => key_of "" pw.1)).Nodup := by
  have hcomps := leaves_comps_good v hg
  have hcong : (leaves v).map (fun pw => key_of "" pw.1)
      = ((leaves v).map Prod.fst).map dot_join := by
    rw [List.map_map]
    refine List.map_congr_left ?_
    intro pw hpw
    exact key_of_empty pw.1 (fun c hc => (hcomps pw hpw c hc).1)
  rw [hcong]
  refine List.Nodup.map_on ?_ (leaves_paths_nodup v hg)
  intro p hp q hq hpq
  obtain ⟨pw, hpw, hp'⟩ := List.mem_map.mp hp
  obtain ⟨qw, hqw, hq'⟩ := List.mem_map.mp hq
  refine dot_join_inj p q ?_ ?_ hpq
  · intro c hc
    rw [← hp'] at hc
    exact hcomps pw hpw c hc
  · intro c hc
    rw [← hq'] at hc
    exact hcomps qw hqw c hc

/-- A key absent from the association list fails the membership test. -/
theorem has_key_eq_false_of_not_mem (d : List (String × Value)) (k : String)
    (h : k ∉ d.map Prod.fst) : has_key d k = false := by
  cases hhk : has_key d k with
  | false => rfl
  | true =>
    exfalso
    simp only [has_key, List.any_eq_true] at hhk
    obtain ⟨p, hp, hpk⟩ := hhk
    rw [beq_iff_eq] at hpk
    exact h (List.mem_map.mpr ⟨p, hp, hpk⟩)

/-- Inserting a fresh key appends the binding. -/
theorem dinsert_fresh (d : List (String × Value)) (k : String) (v : Value)
    (h : k ∉ d.map Prod.fst) : dinsert d k v = d ++ [(k, v)] := by
  simp [dinsert, has_key_eq_false_of_not_mem d k h]

/-- A list that is duplicate-free after appending an element does not
already contain it. -/
theorem not_mem_of_nodup_append_singleton {α : Type} {xs : List α} {a : α}
    (h : (xs ++ [a]).Nodup) : a ∉ xs := by
  intro hmem
  rcases List.nodup_append.mp h with ⟨_, _, hdisj⟩
  exact hdisj hmem (List.mem_singleton_self a)

/-- `flatten` stores a non-container value with one dict assignment. -/
theorem flatten_aux_leaf (v : Value) (hs : is_scalar v = true)
    (d : List (String × Value)) (pre : String) :
    flatten_aux v d pre = dinsert d pre (leaf_store v) := by
  cases v with
  | vdict fs => simp [is_scalar] at hs
  | vlist vs => simp [is_scalar] at hs
  | vtime t => simp [is_scalar] at hs
  | vnone => rfl
  | vbool b => rfl
  | vstr s => rfl
  | vint n =>
    by_cases hn : py_in_tfn (Value.vint n) <;>
      simp [flatten_aux, leaf_store, hn]

/-- A non-container value is a single leaf at the empty path. -/
theorem leaves_scalar (v : Value) (hs : is_scalar v = true) :
    leaves v = [([], v)] := by
  cases v <;> first | rfl | simp [is_scalar] at hs

/-- The scalar case of the flattening characterization: with all pending
keys fresh, flattening a scalar appends its single binding. -/
theorem flatten_aux_gen_scalar (v : Value) (hs : is_scalar v = true)
    (d : List (String × Value)) (pre : String)
    (hnd : ((d ++ (leaves v).map
      (fun pw => (key_of pre pw.1, leaf_store pw.2))).map Prod.fst).Nodup) :
    flatten_aux v d pre
      = d ++ (leaves v).map (fun pw => (key_of pre pw.1, leaf_store pw.2)) := by
  rw [leaves_scalar v hs] at hnd ⊢
  simp only [List.map_cons, List.map_nil, key_of] at hnd ⊢
  rw [flatten_aux_leaf v hs]
  have hfresh : pre ∉ d.map Prod.fst := by
    rw [List.map_append] at hnd
    simp only [List.map_cons, List.map_nil] at hnd
    exact not_mem_of_nodup_append_singleton hnd
  exact dinsert_fresh d pre (leaf_store v) hfresh

/-- The tuple branch on a run of integer elements appends one binding
per element, keyed by the dotted prefix and the stringified index,
provided all pending keys are fresh and pairwise distinct. -/
theorem flatten_ints_gen : ∀ (es : List Int) (i : Nat)
    (d : List (String × Value)) (pd : String),
    ((d ++ (int_leaves es i).map
      (fun pw => (key_tail pd pw.1, leaf_store pw.2))).map Prod.fst).Nodup →
    flatten_ints es i d pd
      = d ++ (int_leaves es i).map
          (fun pw => (key_tail pd pw.1, leaf_store pw.2)) := by
  intro es
  induction es with
  | nil => intro i d pd _; simp [flatten_ints, int_leaves]
  | cons e rest ih =>
    intro i d pd hnd
    have hkey : key_tail pd [nat_str i] = pd ++ nat_str i := rfl
    simp only [int_leaves, List.map_cons] at hnd ⊢
    rw [hkey] at hnd ⊢
    have hstore : (if py_in_tfn (Value.vint e) then
        dinsert d (pd ++ nat_str i) (Value.vint e)
      else dinsert d (pd ++ nat_str i) (Value.vstr (py_str (Value.vint e))))
        = dinsert d (pd ++ nat_str i) (leaf_store (Value.vint e)) := by
      by_cases hn : py_in_tfn (Value.vint e) <;> simp [leaf_store, hn]
    have hfresh : (pd ++ nat_str i) ∉ d.map Prod.fst := by
      have h2 := hnd
      rw [List.map_append, List.map_cons] at h2
      rcases List.nodup_append.mp h2 with ⟨_, _, hdisj⟩
      intro hmem
      exact hdisj hmem (List.mem_cons_self _ _)
    rw [show flatten_ints (e :: rest) i d pd
        = flatten_ints rest (i + 1)
            (if py_in_tfn (Value.vint e) then
              dinsert d (pd ++ nat_str i) (Value.vint e)
            else dinsert d (pd ++ nat_str i)
              (Value.vstr (py_str (Value.vint e)))) pd from rfl]
    rw [hstore, dinsert_fresh d _ _ hfresh]
    have hnd2 := hnd
    rw [List.append_cons] at hnd2
    rw [ih (i + 1)
      (d ++ [(pd ++ nat_str i, leaf_store (Value.vint e))]) pd hnd2]
    rw [← List.append_cons]

mutual
/-- Flattening appends one binding per leaf, keyed by the leaf's path
under the current prefix, provided all those keys are fresh and pairwise
distinct. -/
theorem flatten_aux_gen : ∀ (v : Value) (d : List (String × Value)) (pre : String),
    ((d ++ (leaves v).map
      (fun pw => (key_of pre pw.1, leaf_store pw.2))).map Prod.fst).Nodup →
    flatten_aux v d pre
      = d ++ (leaves v).map (fun pw => (key_of pre pw.1, leaf_store pw.2)) := by
  intro v
  cases v with
  | vdict fs =>
    intro d pre hnd
    have hcongr : (leaves (Value.vdict fs)).map
        (fun pw => (key_of pre pw.1, leaf_store pw.2))
        = (leaves_fields fs).map
          (fun pw => (key_tail (iter_name pre) pw.1, leaf_store pw.2)) := by
      refine List.map_congr_left ?_
      intro pw hpw
      obtain ⟨k, p, hp, _⟩ := leaves_fields_heads fs pw hpw
      rw [hp]
      rfl
    rw [hcongr] at hnd ⊢
    exact flatten_fields_gen fs d (iter_name pre) hnd
  | vlist vs =>
    intro d pre hnd
    have hcongr : (leaves (Value.vlist vs)).map
        (fun pw => (key_of pre pw.1, leaf_store pw.2))
        = (leaves_items vs 0).map
          (fun pw => (key_tail (iter_name pre) pw.1, leaf_store pw.2)) := by
      refine List.map_congr_left ?_
      intro pw hpw
      obtain ⟨j, p, hp, _⟩ := leaves_items_heads vs 0 pw hpw
      rw [hp]
      rfl
    rw [hcongr] at hnd ⊢
    exact flatten_items_gen vs 0 d (iter_name pre) hnd
  | vtime t =>
    intro d pre hnd
    have hcongr : (leaves (Value.vtime t)).map
        (fun pw => (key_of pre pw.1, leaf_store pw.2))
        = (int_leaves (struct_time_list t) 0).map
          (fun pw => (key_tail (iter_name pre) pw.1, leaf_store pw.2)) := by
      refine List.map_congr_left ?_
      intro pw hpw
      obtain ⟨j, e, _, hp⟩ := int_leaves_heads (struct_time_list t) 0 pw hpw
      rw [hp]
      rfl
    rw [hcongr] at hnd ⊢
    exact flatten_ints_gen (struct_time_list t) 0 d (iter_name pre) hnd
  | vnone => intro d pre hnd; exact flatten_aux_gen_scalar Value.vnone rfl d pre hnd
  | vbool b => intro d pre hnd; exact flatten_aux_gen_scalar (Value.vbool b) rfl d pre hnd
  | vint n => intro d pre hnd; exact flatten_aux_gen_scalar (Value.vint n) rfl d pre hnd
  | vstr s => intro d pre hnd; exact flatten_aux_gen_scalar (Value.vstr s) rfl d pre hnd

/-- The dict loop appends the bindings of every field's leaves, in
order, under the dotted prefix. -/
theorem flatten_fields_gen : ∀ (fs : Fields) (d : List (String × Value)) (pd : String),
    ((d ++ (leaves_fields fs).map
      (fun pw => (key_tail pd pw.1, leaf_store pw.2))).map Prod.fst).Nodup →
    flatten_fields fs d pd
      = d ++ (leaves_fields fs).map
          (fun pw => (key_tail pd pw.1, leaf_store pw.2)) := by
  intro fs
  cases fs with
  | fnil => intro d pd _; simp [flatten_fields, leaves_fields]
  | fcons k v rest =>
    intro d pd hnd
    have hsplit : (leaves_fields (Fields.fcons k v rest)).map
        (fun pw => (key_tail pd pw.1, leaf_store pw.2))
        = (leaves v).map (fun pw => (key_of (pd ++ k) pw.1, leaf_store pw.2))
          ++ (leaves_fields rest).map
            (fun pw => (key_tail pd pw.1, leaf_store pw.2)) := by
      simp only [leaves_fields, List.map_append, List.map_map]
      rfl
    rw [hsplit] at hnd ⊢
    rw [show flatten_fields (Fields.fcons k v rest) d pd
        = flatten_fields rest (flatten_aux v d (pd ++ k)) pd from rfl]
    rw [← List.append_assoc] at hnd
    have hndV : ((d ++ (leaves v).map
        (fun pw => (key_of (pd ++ k) pw.1, leaf_store pw.2))).map
          Prod.fst).Nodup := by
      rw [List.map_append] at hnd
      exact hnd.of_append_left
    rw [flatten_aux_gen v d (pd ++ k) hndV]
    rw [flatten_fields_gen rest
      (d ++ (leaves v).map (fun pw => (key_of (pd ++ k) pw.1, leaf_store pw.2)))
      pd hnd]
    rw [List.append_assoc]

/-- The list loop appends the bindings of every element's leaves, in
order, with stringified indices under the dotted prefix. -/
theorem flatten_items_gen : ∀ (vs : Values) (i : Nat) (d : List (String × Value))
    (pd : String),
    ((d ++ (leaves_items vs i).map
      (fun pw => (key_tail pd pw.1, leaf_store pw.2))).map Prod.fst).Nodup →
    flatten_items vs i d pd
      = d ++ (leaves_items vs i).map
          (fun pw => (key_tail pd pw.1, leaf_store pw.2)) := by
  intro vs
  cases vs with
  | lnil => intro i d pd _; simp [flatten_items, leaves_items]
  | lcons v rest =>
    intro i d pd hnd
    have hsplit : (leaves_items (Values.lcons v rest) i).map
        (fun pw => (key_tail pd pw.1, leaf_store pw.2))
        = (leaves v).map
            (fun pw => (key_of (pd ++ nat_str i) pw.1, leaf_store pw.2))
          ++ (leaves_items rest (i + 1)).map
            (fun pw => (key_tail pd pw.1, leaf_store pw.2)) := by
      simp only [leaves_items, List.map_append, List.map_map]
      rfl
    rw [hsplit] at hnd ⊢
    rw [show flatten_items (Values.lcons v rest) i d pd
        = flatten_items rest (i + 1)
            (flatten_aux v d (pd ++ nat_str i)) pd from rfl]
    rw [← List.append_assoc] at hnd
    have hndV : ((d ++ (leaves v).map
        (fun pw => (key_of (pd ++ nat_str i) pw.1, leaf_store pw.2))).map
          Prod.fst).Nodup := by
      rw [List.map_append] at hnd
      exact hnd.of_append_left
    rw [flatten_aux_gen v d (pd ++ nat_str i) hndV]
    rw [flatten_items_gen rest (i + 1)
      (d ++ (leaves v).map
        (fun pw => (key_of (pd ++ nat_str i) pw.1, leaf_store pw.2)))
      pd hnd]
    rw [List.append_assoc]
end

/-- C8 (counterexample): the record `{"a": {"b": 2}, "a.b": 3}` has two
distinct leaves (paths `["a","b"]` and `["a.b"]`) whose dotted paths
collide at the key `"a.b"`; flattening keeps only one binding, so not
every leaf is represented and keys are not in bijection with leaves. -/
theorem flatten_dotted_key_collision :
    leaves (Value.vdict (Fields.fcons "a" (Value.vdict (Fields.fcons "b"
        (Value.vint 2) Fields.fnil)) (Fields.fcons "a.b" (Value.vint 3)
        Fields.fnil)))
      = [(["a", "b"], Value.vint 2), (["a.b"], Value.vint 3)] ∧
    dot_join ["a", "b"] = dot_join ["a.b"] ∧
    flatten (Value.vdict (Fields.fcons "a" (Value.vdict (Fields.fcons "b"
        (Value.vint 2) Fields.fnil)) (Fields.fcons "a.b" (Value.vint 3)
        Fields.fnil)))
      = [("a.b", Value.vstr "3")] :=
  ⟨rfl, rfl, rfl⟩

/-- C8 (amended): for a record whose dict keys are pairwise distinct,
nonempty and contain no `'.'`, the mapping produced by `flatten` has
pairwise-distinct keys and is exactly one binding per leaf, at the
leaf's dotted path (dict keys joined by `'.'`, list indices as
stringified zero-based integers), in leaf-enumeration order. -/
theorem flatten_unique_keys_of_good_records (v : Value)
    (hg : good_keys v = true) :
    ((flatten v).map Prod.fst).Nodup ∧
    flatten v = (leaves v).map (fun pw => (dot_join pw.1, leaf_store pw.2)) := by
  have hcomps := leaves_comps_good v hg
  have hcong : (leaves v).map (fun pw => (key_of "" pw.1, leaf_store pw.2))
      = (leaves v).map (fun pw => (dot_join pw.1, leaf_store pw.2)) := by
    refine List.map_congr_left ?_
    intro pw hpw
    rw [key_of_empty pw.1 (fun c hc => (hcomps pw hpw c hc).1)]
  have hkeys := gen_keys_nodup v hg
  have hnd : ((([] : List (String × Value)) ++ (leaves v).map
      (fun pw => (key_of "" pw.1, leaf_store pw.2))).map Prod.fst).Nodup := by
    rw [List.nil_append, List.map_map]
    exact hkeys
  have h := flatten_aux_gen v [] "" hnd
  rw [List.nil_append] at h
  have hflat : flatten v
      = (leaves v).map (fun pw => (key_of "" pw.1, leaf_store pw.2)) := h
  constructor
  · rw [hflat, List.map_map]
    exact hkeys
  · rw [hflat, hcong]

/-- Witness for C8 (amended) at `{"a": {"b": "x"}, "c": [None, 1],
"updated_parsed": struct_time(2021, 1, 2, 3, 4, 5, 5, 2, 0)}` — a record
with a timestamp, which flattens element-wise as a tuple. -/
theorem flatten_unique_keys_of_good_records_witness :
    good_keys (Value.vdict (Fields.fcons "a" (Value.vdict (Fields.fcons "b"
        (Value.vstr "x") Fields.fnil)) (Fields.fcons "c" (Value.vlist
        (Values.lcons Value.vnone (Values.lcons (Value.vint 1) Values.lnil)))
        (Fields.fcons "updated_parsed"
          (Value.vtime ⟨2021, 1, 2, 3, 4, 5, 5, 2, 0⟩) Fields.fnil)))) = true ∧
    (((flatten (Value.vdict (Fields.fcons "a" (Value.vdict (Fields.fcons "b"
        (Value.vstr "x") Fields.fnil)) (Fields.fcons "c" (Value.vlist
        (Values.lcons Value.vnone (Values.lcons (Value.vint 1) Values.lnil)))
        (Fields.fcons "updated_parsed"
          (Value.vtime ⟨2021, 1, 2, 3, 4, 5, 5, 2, 0⟩) Fields.fnil))))).map Prod.fst).Nodup ∧
      flatten (Value.vdict (Fields.fcons "a" (Value.vdict (Fields.fcons "b"
        (Value.vstr "x") Fields.fnil)) (Fields.fcons "c" (Value.vlist
        (Values.lcons Value.vnone (Values.lcons (Value.vint 1) Values.lnil)))
        (Fields.fcons "updated_parsed"
          (Value.vtime ⟨2021, 1, 2, 3, 4, 5, 5, 2, 0⟩) Fields.fnil))))
        = (leaves (Value.vdict (Fields.fcons "a" (Value.vdict (Fields.fcons "b"
        (Value.vstr "x") Fields.fnil)) (Fields.fcons "c" (Value.vlist
        (Values.lcons Value.vnone (Values.lcons (Value.vint 1) Values.lnil)))
        (Fields.fcons "updated_parsed"
          (Value.vtime ⟨2021, 1, 2, 3, 4, 5, 5, 2, 0⟩) Fields.fnil))))).map
            (fun pw => (dot_join pw.1, leaf_store pw.2))) :=
  ⟨by decide,
   flatten_unique_keys_of_good_records (Value.vdict (Fields.fcons "a" (Value.vdict (Fields.fcons "b"
        (Value.vstr "x") Fields.fnil)) (Fields.fcons "c" (Value.vlist
        (Values.lcons Value.vnone (Values.lcons (Value.vint 1) Values.lnil)))
        (Fields.fcons "updated_parsed"
          (Value.vtime ⟨2021, 1, 2, 3, 4, 5, 5, 2, 0⟩) Fields.fnil))))
     (by decide)⟩
